import Mathlib

/-!
Shallow embedding, in Lean 4, of the verification pipeline of the `hcdl`
command-line utility (shasum-manifest parsing and lookup, SHA-256 digest
comparison, detached-signature checking, GPG key resolution, zip install
with CRC32 gating, and staged temp files), together with theorems settling
the specification claims about it.

Machine integers are modelled as `Nat` with explicit `% 2 ^ w` masking
where overflow matters; fallible Rust code is modelled with `Except`;
filesystem effects are modelled with explicit state or event traces.
-/

deriving instance DecidableEq for Except

namespace Hcdl

/-! ## String helpers mirroring the Rust standard library

The Rust code uses `str::lines`, `str::split_whitespace` and
`Path::file_name`.  We embed them as structurally recursive functions over
`List Char` so that all definitions are executable and kernel-reducible.
-/

/-- Finish one accumulated line (characters held in reverse order):
Rust's `str::lines` strips a single trailing carriage return. -/
def finishLine (cur : List Char) : String :=
  match cur with
  | '\r' :: cur2 => String.mk cur2.reverse
  | _ => String.mk cur.reverse

/-- Worker for `rustLines`: split at each newline; the segment after the
final newline is kept only if non-empty (so one trailing newline produces
no extra blank line, matching `str::lines`). -/
def rustLinesAux : List Char → List Char → List String
  | [], cur => if cur = [] then [] else [finishLine cur]
  | c :: rest, cur =>
    if c = '\n' then finishLine cur :: rustLinesAux rest []
    else rustLinesAux rest (c :: cur)

/-- Embedding of Rust `str::lines`. -/
def rustLines (s : String) : List String :=
  rustLinesAux s.data []

/-- Worker for `splitWhitespace`: group maximal runs of non-whitespace
characters, discarding all whitespace (so no empty tokens are produced),
matching `str::split_whitespace`. -/
def splitWhitespaceAux : List Char → List Char → List String
  | [], cur => if cur = [] then [] else [String.mk cur.reverse]
  | c :: rest, cur =>
    if c.isWhitespace then
      if cur = [] then splitWhitespaceAux rest []
      else String.mk cur.reverse :: splitWhitespaceAux rest []
    else splitWhitespaceAux rest (c :: cur)

/-- Embedding of Rust `str::split_whitespace`. -/
def splitWhitespace (s : String) : List String :=
  splitWhitespaceAux s.data []

/-! ## Checksum Ledger: `src/shasums.rs` -/

/-- Result of a shasum comparison; `Checksum::OK` / `Checksum::Bad` in
`src/shasums.rs`. -/
inductive Checksum where
  | OK : Checksum
  | Bad : Checksum
deriving DecidableEq, Repr

/-- Failure modes of the shasums component.  `MalformedManifest` models
the `assert!(split.len() == 2, "malformed shasums file")` panic in
`Shasums::parse`; `NoShasumForFile` models the "Couldn't find shasum"
error in `Shasums::check`. -/
inductive ShasumsError where
  | MalformedManifest : ShasumsError
  | NoShasumForFile (filename : String) : ShasumsError
deriving DecidableEq, Repr

/-- `HashMap::insert` semantics on an association list: replace the value
of an existing key in place, otherwise append the new binding. -/
def hashInsert (m : List (String × String)) (k v : String) : List (String × String) :=
  match m with
  | [] => [(k, v)]
  | (k0, v0) :: rest => if k0 = k then (k, v) :: rest else (k0, v0) :: hashInsert rest k v

/-- `HashMap::get` semantics on an association list. -/
def hashGet (m : List (String × String)) (k : String) : Option String :=
  match m with
  | [] => none
  | (k0, v0) :: rest => if k0 = k then some v0 else hashGet rest k

/-- Worker for `Shasums.parse`: one iteration of the `for line in lines`
loop.  Each line must split into exactly two whitespace-separated tokens
`shasum filename` (the `assert!` in the source); the pair is inserted into
the hash keyed by filename. -/
def parseLines : List String → List (String × String) →
    Except ShasumsError (List (String × String))
  | [], acc => .ok acc
  | line :: rest, acc =>
    match splitWhitespace line with
    | [shasum, filename] => parseLines rest (hashInsert acc filename shasum)
    | _ => .error .MalformedManifest

/-- Embedding of `Shasums::parse` (src/shasums.rs lines 37-52): builds a
map from filename to shasum, one line at a time; a panic of the
`assert!` is modelled as `.error .MalformedManifest`. -/
def Shasums.parse (content : String) : Except ShasumsError (List (String × String)) :=
  parseLines (rustLines content) []

/-- Embedding of `Shasums::shasum` (src/shasums.rs lines 83-88): parse the
manifest, then look the filename up in the resulting map. -/
def Shasums.shasum (content filename : String) : Except ShasumsError (Option String) :=
  match Shasums.parse content with
  | .error e => .error e
  | .ok parsed => .ok (hashGet parsed filename)

/-- Lower-case hex digit for a nibble, as produced by `hex::encode`. -/
def hexDigitChar (n : Nat) : Char :=
  if n < 10 then Char.ofNat (48 + n) else Char.ofNat (87 + n % 16)

/-- Embedding of `hex::encode`: lower-case hexadecimal rendering of a byte
string (bytes are `Nat`s masked to `% 256`). -/
def hexEncode (bytes : List Nat) : String :=
  String.mk (bytes.foldr
    (fun b acc => hexDigitChar (b % 256 / 16) :: hexDigitChar (b % 16) :: acc) [])

/-- Embedding of `Shasums::check` (src/shasums.rs lines 55-75), with the
SHA-256 digest of the file's bytes supplied as the abstract input
`digest` (the hashing itself is performed by the external `sha2` crate):
look up the stored shasum for the filename, then compare
`hex::encode(hash) == shasum` by exact string equality. -/
def Shasums.check (content filename : String) (digest : List Nat) :
    Except ShasumsError Checksum :=
  match Shasums.shasum content filename with
  | .error e => .error e
  | .ok none => .error (.NoShasumForFile filename)
  | .ok (some stored) =>
    .ok (if hexEncode digest = stored then Checksum.OK else Checksum.Bad)

/-- Spec-side normalization used by the claims: map a hex string to
lower case, character by character. -/
def normalizeHex (s : String) : String :=
  String.mk (s.data.map Char.toLower)

/-- Spec-side lookup used to state the duplicate-filename behavior: the
digest paired with `f` on the *last* line of the manifest whose second
column is `f`, or `none` when no line matches. -/
def lastShasumFor : List String → String → Option String
  | [], _ => none
  | line :: rest, f =>
    match lastShasumFor rest f with
    | some v => some v
    | none =>
      match splitWhitespace line with
      | [shasum, filename] => if filename = f then some shasum else none
      | _ => none

/-! ## Signature Verifier: `src/signature.rs` -/

/-- The single failure kind of `Signature::check`: the
`anyhow!("Couldn't verify signature")` error (the `Verification` variant
of `SignatureError` in src/error.rs).  It is a nullary constructor: it
carries no information about which key was tried or why verification
failed. -/
inductive SignatureCheckError where
  | VerificationFailed : SignatureCheckError
deriving DecidableEq, Repr

/-- One key tried during `Signature::check`: either the public subkey at a
given index of `public_key.public_subkeys`, or the primary public key. -/
inductive KeyTried where
  | subkey (i : Nat) : KeyTried
  | primary : KeyTried
deriving DecidableEq, Repr

/-- The `for subkey in &self.public_key.public_subkeys` loop of
`Signature::check` (src/signature.rs lines 105-110), starting at subkey
index `idx`.  Each subkey's verification outcome is the corresponding
entry of `subkeys` (the cryptographic `verify` call is performed by the
external `pgp` crate, so its outcome per key is the abstract input).
Returns the list of keys tried, in order, and whether a subkey
validated (`Ok(())` was returned from inside the loop). -/
def checkSubkeysLoop : List Bool → Nat → List KeyTried × Bool
  | [], _ => ([], false)
  | ok :: rest, idx =>
    if ok then ([.subkey idx], true)
    else
      let (tried, success) := checkSubkeysLoop rest (idx + 1)
      (.subkey idx :: tried, success)

/-- Embedding of `Signature::check` (src/signature.rs lines 100-117):
try the signature against each public subkey in order, returning success
on the first subkey that validates; otherwise try the primary public
key; if that also fails, return the single generic verification error.
`subkeys` lists the verification outcome of the signature against each
subkey, `primaryKey` the outcome against the primary key.  The returned
list records each key tried, in order. -/
def Signature.check (subkeys : List Bool) (primaryKey : Bool) :
    List KeyTried × Except SignatureCheckError Unit :=
  let (tried, success) := checkSubkeysLoop subkeys 0
  if success then (tried, .ok ())
  else if primaryKey then (tried ++ [.primary], .ok ())
  else (tried ++ [.primary], .error .VerificationFailed)

/-! ## Trusted-key resolution: `src/signature.rs` lines 134-199 -/

/-- Failure modes of trusted-key resolution, modelling the anyhow errors
of `get_public_key_path` / `read_file_content` (the `NoSharedDataDir`,
`NoSharedDataDirExists`, `GpgKey` and `IoError` variants of
`SignatureError` in src/error.rs; the claims call the missing-key case
`GpgKeyNotFound`). -/
inductive KeyResolutionError where
  | NoSharedDataDir : KeyResolutionError
  | NoSharedDataDirExists (path : String) : KeyResolutionError
  | GpgKeyNotFound (path : String) : KeyResolutionError
  | IoError : KeyResolutionError
deriving DecidableEq, Repr

/-- Abstract view of the platform filesystem facts that
`get_public_key_path` consults: the result of `dirs::data_dir()` and the
`exists` / `is_dir` / `is_file` predicates on paths. -/
structure Platform where
  dataDir : Option String
  pathExists : String → Bool
  isDir : String → Bool
  isFile : String → Bool

/-- The `HASHICORP_GPG_KEY_FILENAME` constant of src/signature.rs. -/
def hashicorpGpgKeyFilename : String := "hashicorp.asc"

/-- The value of `env!("CARGO_PKG_NAME")` for this crate. -/
def cargoPkgName : String := "hcdl"

/-- `PathBuf::join` for a relative right-hand component. -/
def pathJoin (a b : String) : String := a ++ "/" ++ b

/-- Embedding of `get_public_key_path` (src/signature.rs lines 134-180),
non-test branch: resolve the platform shared-data directory (fail with
`NoSharedDataDir` when the platform supplies none; fail with
`NoSharedDataDirExists` when the resolved path does not exist or is not
a directory), then look for `<data-dir>/<app-name>/hashicorp.asc`
(fail with `GpgKeyNotFound` when that path does not exist or is not a
regular file). -/
def getPublicKeyPath (p : Platform) : Except KeyResolutionError String :=
  match p.dataDir with
  | none => .error .NoSharedDataDir
  | some dataDir =>
    if !(p.pathExists dataDir) || !(p.isDir dataDir) then
      .error (.NoSharedDataDirExists dataDir)
    else
      let path := pathJoin (pathJoin dataDir cargoPkgName) hashicorpGpgKeyFilename
      if !(p.pathExists path) || !(p.isFile path) then
        .error (.GpgKeyNotFound path)
      else
        .ok path

/-- Compile-time configuration relevant to key resolution: whether the
crate was built with the `embed_gpg_key` feature, and if so the content
of the `include_str!("../gpg/hashicorp.asc")` constant. -/
structure BuildConfig where
  embedGpgKey : Bool
  embeddedKey : String

/-- Embedding of `get_public_key` (both `cfg` variants, src/signature.rs
lines 184-199): in embedded-key mode return the compiled-in key constant;
otherwise resolve the key path with `getPublicKeyPath` and read the file
(`readFile` abstracts `read_file_content`, which can fail with an IO
error). -/
def getPublicKey (cfg : BuildConfig) (p : Platform)
    (readFile : String → Except Unit String) : Except KeyResolutionError String :=
  if cfg.embedGpgKey then .ok cfg.embeddedKey
  else
    match getPublicKeyPath p with
    | .error e => .error e
    | .ok path =>
      match readFile path with
      | .error _ => .error .IoError
      | .ok content => .ok content

/-! ## CRC Verifier: `src/crc32.rs`

`crc32::check` folds the file's bytes into a `crc32fast::Hasher`
(standard reflected IEEE CRC32) and compares the result with the
expected value.  We embed the CRC32 computation bit by bit over `Nat`.
-/

/-- The reflected IEEE CRC32 polynomial. -/
def crc32Poly : Nat := 0xEDB88320

/-- One bit step of the reflected IEEE CRC32. -/
def crc32UpdateBit (crc : Nat) : Nat :=
  if crc % 2 = 1 then (crc / 2) ^^^ crc32Poly else crc / 2

/-- Fold one byte into a running CRC32 accumulator. -/
def crc32UpdateByte (crc b : Nat) : Nat :=
  crc32UpdateBit (crc32UpdateBit (crc32UpdateBit (crc32UpdateBit
    (crc32UpdateBit (crc32UpdateBit (crc32UpdateBit (crc32UpdateBit
      (crc ^^^ b % 256))))))))

/-- CRC32 (reflected IEEE polynomial, as computed by `crc32fast`) of a
byte string. -/
def crc32 (data : List Nat) : Nat :=
  (data.foldl crc32UpdateByte 0xFFFFFFFF) ^^^ 0xFFFFFFFF

/-! ## Archive Installer: `src/install.rs`

`install` is embedded as a function from the parsed archive (a list of
entries) to an event trace over the destination directory plus a result.
The trace makes the ordering facts of the claims (temp file first, CRC
check at the temp path, persist only after the check, permissions only
after persist) statable.
-/

/-- One entry of the zip archive: its stored name, the bytes it
decompresses to, the CRC32 stored in the archive's metadata for it, and
the optional Unix permission bits (`ZipFile::name`, `ZipFile::crc32`,
`ZipFile::unix_mode`). -/
structure ZipEntry where
  name : String
  data : List Nat
  storedCrc32 : Nat
  unixMode : Option Nat
deriving DecidableEq, Repr

/-- Filesystem events an installation run performs, in trace order:
reading entry `idx` from the archive (`zip.by_index(i)`), creating a
temp file inside a directory (`NamedTempFile::new_in(dir)`), writing
bytes to a temp file (`io::copy`), CRC-checking a temp file's content
(`crc32::check`), persisting (renaming) a temp file to a destination
path (`TempPath::persist`), and setting permissions on a destination
path (`fs::set_permissions`).  Temp files are identified by the index of
the entry they were created for. -/
inductive FsEvent where
  | readEntry (idx : Nat) : FsEvent
  | createTemp (dir : String) (tmp : Nat) : FsEvent
  | writeTemp (tmp : Nat) (data : List Nat) : FsEvent
  | crcCheck (tmp : Nat) (computed expected : Nat) : FsEvent
  | persistFile (tmp : Nat) (dest : String) : FsEvent
  | setPermBits (dest : String) (mode : Nat) : FsEvent
deriving DecidableEq, Repr

/-- Failure modes of `install`, modelling `InstallError` of src/error.rs
(`Crc32` wraps `Crc32Error::UnexpectedCrc32(got, expected)`; `ZipIndex`
models zip-format errors from `ZipArchive::new`). -/
inductive InstallError where
  | NoInstallDir (dir : String) : InstallError
  | ZipIndex : InstallError
  | ZipFileBasename (name : String) : InstallError
  | Crc32 (got expected : Nat) : InstallError
deriving DecidableEq, Repr

/-- Embedding of Rust `Path::file_name` for the stored entry name:
split the path on `/`, drop empty and `.` components; the file name is
the last remaining component unless it is `..` or there is none. -/
def splitSlash : List Char → List Char → List String
  | [], cur => [String.mk cur.reverse]
  | c :: rest, cur =>
    if c = '/' then String.mk cur.reverse :: splitSlash rest []
    else splitSlash rest (c :: cur)

/-- Rust `Path::new(name).file_name()`. -/
def rustFileName (s : String) : Option String :=
  let segs := (splitSlash s.data []).filter (fun t => t != "" && t != ".")
  match segs.getLast? with
  | none => none
  | some t => if t = ".." then none else some t

/-- Embedding of `extract` (src/install.rs lines 57-72): create a temp
file under `dir`, copy the entry's bytes into it, and CRC-check what was
written against the entry's stored CRC32; on mismatch the run fails with
`Crc32Error::UnexpectedCrc32(result, expected)` wrapped in
`InstallError::Crc32`. -/
def extract (e : ZipEntry) (dir : String) (tmp : Nat) :
    List FsEvent × Except InstallError Unit :=
  let computed := crc32 e.data
  let events := [FsEvent.createTemp dir tmp, FsEvent.writeTemp tmp e.data,
                 FsEvent.crcCheck tmp computed e.storedCrc32]
  if computed = e.storedCrc32 then (events, .ok ())
  else (events, .error (.Crc32 computed e.storedCrc32))

/-- The `for i in 0..zip.len()` loop of `install` (src/install.rs lines
102-134), with `idx` the index of the first remaining entry: read the
entry, derive the basename of its stored name (failing with
`ZipFileBasename` when there is none), extract it to a temp file under
`dir`, persist the temp file to `dir/basename`, restore the Unix
permission bits when the entry carries them, and record the basename. -/
def installEntries (dir : String) : List ZipEntry → Nat →
    List FsEvent × Except InstallError (List String)
  | [], _ => ([], .ok [])
  | e :: rest, idx =>
    match rustFileName e.name with
    | none => ([FsEvent.readEntry idx], .error (.ZipFileBasename e.name))
    | some basename =>
      let (extractEvents, extractRes) := extract e dir idx
      match extractRes with
      | .error err => (FsEvent.readEntry idx :: extractEvents, .error err)
      | .ok () =>
        let dest := dir ++ "/" ++ basename
        let permEvents := match e.unixMode with
          | some mode => [FsEvent.setPermBits dest mode]
          | none => []
        let (restEvents, restRes) := installEntries dir rest (idx + 1)
        (FsEvent.readEntry idx :: extractEvents ++ FsEvent.persistFile idx dest ::
           permEvents ++ restEvents,
         match restRes with
         | .error err => .error err
         | .ok names => .ok (basename :: names))

/-- Embedding of `install` (src/install.rs lines 88-137): fail with
`NoInstallDir` when the destination is not an existing directory (the
`dir.is_dir()` fact is the Boolean input `dirIsDir`); only then open the
archive (`archive` is `.error ()` when `ZipArchive::new` cannot read the
central directory), and process every entry in order. -/
def install (dirIsDir : Bool) (dir : String)
    (archive : Except Unit (List ZipEntry)) :
    List FsEvent × Except InstallError (List String) :=
  if dirIsDir then
    match archive with
    | .error _ => ([], .error .ZipIndex)
    | .ok entries => installEntries dir entries 0
  else
    ([], .error (.NoInstallDir dir))

/-- Basename an entry is installed under (meaningful when
`rustFileName e.name` is `some`). -/
def basenameOf (e : ZipEntry) : String :=
  (rustFileName e.name).getD ""

/-- An entry whose processing succeeds: its stored name has a basename
and its bytes hash to the stored CRC32. -/
def entryOk (e : ZipEntry) : Prop :=
  (rustFileName e.name).isSome = true ∧ crc32 e.data = e.storedCrc32

/-- The event block produced by successfully processing one entry. -/
def okBlock (dir : String) (e : ZipEntry) (idx : Nat) : List FsEvent :=
  [FsEvent.readEntry idx, FsEvent.createTemp dir idx,
   FsEvent.writeTemp idx e.data,
   FsEvent.crcCheck idx (crc32 e.data) e.storedCrc32,
   FsEvent.persistFile idx (dir ++ "/" ++ basenameOf e)] ++
  (match e.unixMode with
   | some mode => [FsEvent.setPermBits (dir ++ "/" ++ basenameOf e) mode]
   | none => [])

/-- The event trace of successfully processing a list of entries. -/
def blockEvents (dir : String) : List ZipEntry → Nat → List FsEvent
  | [], _ => []
  | e :: rest, idx => okBlock dir e idx ++ blockEvents dir rest (idx + 1)

/-! ## Staged Temp File: `src/tmpfile.rs` -/

/-- State of a `TmpFile`: the filename it was created for, the bytes
currently in the backing `NamedTempFile`, and the current seek position
of the backing file. -/
structure TmpFile where
  filename : String
  content : List Nat
  pos : Nat
deriving DecidableEq, Repr

/-- A filesystem for `TmpFile::persist` to write into: an association
from path to (content, Unix permission bits). -/
abbrev Fs : Type := List (String × (List Nat × Nat))

/-- Look a path up in the filesystem. -/
def fsLookup (fs : Fs) (k : String) : Option (List Nat × Nat) :=
  match fs with
  | [] => none
  | (k0, v0) :: rest => if k0 = k then some v0 else fsLookup rest k

/-- Write a path's (content, mode) pair, replacing any existing entry. -/
def fsSet (fs : Fs) (k : String) (v : List Nat × Nat) : Fs :=
  match fs with
  | [] => [(k, v)]
  | (k0, v0) :: rest => if k0 = k then (k, v) :: rest else (k0, v0) :: fsSet rest k v

/-- Embedding of `TmpFile::handle` (src/tmpfile.rs lines 48-52): seek the
backing temp file to offset 0 and return it. -/
def TmpFile.handle (t : TmpFile) : TmpFile :=
  { t with pos := 0 }

/-- Reading a handle to the end: yields the bytes from the current seek
position onwards and leaves the position at the end of the file. -/
def TmpFile.readToEnd (t : TmpFile) : TmpFile × List Nat :=
  ({ t with pos := t.content.length }, t.content.drop t.pos)

/-- Embedding of `TmpFile::persist` (src/tmpfile.rs lines 62-82): open
the path named by `self.filename` with create+write+truncate and Unix
mode `0o644` (the mode applies only when the file is created; an
existing file keeps its permission bits and is truncated), rewind the
temp file via `handle()`, and copy its whole content to the destination.
The temp file itself is not renamed or removed. -/
def TmpFile.persist (t : TmpFile) (fs : Fs) : TmpFile × Fs :=
  let mode := match fsLookup fs t.filename with
    | some (_, m) => m
    | none => 0o644
  let (t2, bytes) := t.handle.readToEnd
  (t2, fsSet fs t.filename (bytes, mode))

end Hcdl

namespace Hcdl

/-! ## Lemmas about the Checksum Ledger -/

theorem hashGet_hashInsert (m : List (String × String)) (k v k' : String) :
    hashGet (hashInsert m k v) k' = if k' = k then some v else hashGet m k' := by
  induction m with
  | nil =>
    by_cases h : k' = k
    · simp [hashInsert, hashGet, h]
    · have h2 : ¬k = k' := fun hh => h hh.symm
      simp [hashInsert, hashGet, h, h2]
  | cons hd tl ih =>
    obtain ⟨k0, v0⟩ := hd
    by_cases h0 : k0 = k
    · subst h0
      by_cases h : k' = k0
      · subst h
        simp [hashInsert, hashGet]
      · have h2 : ¬k0 = k' := fun hh => h hh.symm
        simp [hashInsert, hashGet, h, h2]
    · by_cases h : k' = k0
      · subst h
        simp [hashInsert, hashGet, h0]
      · have h2 : ¬k0 = k' := fun hh => h hh.symm
        simp [hashInsert, hashGet, h0, h, h2, ih]

theorem parseLines_ok_of (ls : List String) (acc : List (String × String))
    (h : ∀ l ∈ ls, (splitWhitespace l).length = 2) :
    ∃ m, parseLines ls acc = .ok m := by
  induction ls generalizing acc with
  | nil => exact ⟨acc, rfl⟩
  | cons line rest ih =>
    have h2 : (splitWhitespace line).length = 2 := h line (List.mem_cons_self _ _)
    match hsw : splitWhitespace line with
    | [shasum, filename] =>
      simpa [parseLines, hsw] using
        ih (hashInsert acc filename shasum) (fun l hl => h l (List.mem_cons_of_mem _ hl))
    | [] => simp [hsw] at h2
    | [a] => simp [hsw] at h2
    | a :: b :: c :: rest2 => simp [hsw] at h2

theorem parseLines_error_of (ls : List String) (acc : List (String × String))
    (h : ∃ l ∈ ls, (splitWhitespace l).length ≠ 2) :
    parseLines ls acc = .error .MalformedManifest := by
  induction ls generalizing acc with
  | nil => simp at h
  | cons line rest ih =>
    match hsw : splitWhitespace line with
    | [shasum, filename] =>
      rcases h with ⟨l, hl, hlen⟩
      rcases List.mem_cons.mp hl with rfl | hmem
      · simp [hsw] at hlen
      · simpa [parseLines, hsw] using
          ih (hashInsert acc filename shasum) ⟨l, hmem, hlen⟩
    | [] => simp [parseLines, hsw]
    | [a] => simp [parseLines, hsw]
    | a :: b :: c :: rest2 => simp [parseLines, hsw]

theorem parseLines_get (ls : List String) (acc m : List (String × String))
    (f : String) (h : parseLines ls acc = .ok m) :
    hashGet m f =
      match lastShasumFor ls f with
      | some v => some v
      | none => hashGet acc f := by
  induction ls generalizing acc with
  | nil =>
    simp only [parseLines] at h
    cases h
    simp [lastShasumFor]
  | cons line rest ih =>
    match hsw : splitWhitespace line with
    | [shasum, filename] =>
      rw [parseLines, hsw] at h
      have := ih (hashInsert acc filename shasum) h
      rw [this]
      simp only [lastShasumFor, hsw]
      cases lastShasumFor rest f with
      | some v => rfl
      | none =>
        rw [hashGet_hashInsert]
        by_cases hf : f = filename
        · subst hf
          simp
        · have hf2 : ¬filename = f := fun hh => hf hh.symm
          simp [hf, hf2]
    | [] => rw [parseLines, hsw] at h; cases h
    | [a] => rw [parseLines, hsw] at h; cases h
    | a :: b :: c :: rest2 => rw [parseLines, hsw] at h; cases h

/-- C4 counterexample: the manifest text `"a b\n\n"` has exactly one
non-empty line, and that line splits into exactly two whitespace
separated tokens; the claim therefore says `parse` must succeed on it.
The code instead treats the blank second line (zero tokens) as
malformed. -/
theorem shasums_parse_blank_line_counterexample :
    (∀ l ∈ rustLines "a b\n\n", l ≠ "" → (splitWhitespace l).length = 2) ∧
    Shasums.parse "a b\n\n" = .error .MalformedManifest := by
  constructor
  · decide
  · decide

/-- C4 (amended): `Shasums.parse` succeeds exactly when every line of the
manifest (blank lines included) splits into exactly two whitespace
separated tokens, and fails with `MalformedManifest` exactly when some
line does not; a single trailing newline is tolerated (it produces no
extra line), but blank lines are treated as malformed (zero tokens)
rather than ignored. -/
theorem shasums_parse_malformed_iff (content : String) :
    (Shasums.parse content = .error .MalformedManifest ↔
      ∃ l ∈ rustLines content, (splitWhitespace l).length ≠ 2) ∧
    ((∃ m, Shasums.parse content = .ok m) ↔
      ∀ l ∈ rustLines content, (splitWhitespace l).length = 2) := by
  by_cases h : ∀ l ∈ rustLines content, (splitWhitespace l).length = 2
  · obtain ⟨m, hm⟩ := parseLines_ok_of (rustLines content) [] h
    refine ⟨⟨fun herr => ?_, fun ⟨l, hl, hlen⟩ => absurd (h l hl) hlen⟩,
      ⟨fun _ => h, fun _ => ⟨m, hm⟩⟩⟩
    rw [Shasums.parse] at herr
    rw [herr] at hm
    cases hm
  · push_neg at h
    obtain ⟨l, hl, hlen⟩ := h
    have herr := parseLines_error_of (rustLines content) [] ⟨l, hl, hlen⟩
    refine ⟨⟨fun _ => ⟨l, hl, hlen⟩, fun _ => herr⟩,
      ⟨fun ⟨m, hm⟩ => ?_, fun hall => absurd (hall l hl) hlen⟩⟩
    rw [Shasums.parse, herr] at hm
    cases hm

/-- C5 counterexample: in the manifest `"aaaa f\nbbbb f"` the filename
`f` appears on two lines; the first matching line pairs it with
`"aaaa"`, but lookup returns `"bbbb"`, the digest of the *last* matching
line (`HashMap::insert` overwrites), so "the digest of the first
matching line wins" fails. -/
theorem shasums_lookup_duplicate_counterexample :
    rustLines "aaaa f\nbbbb f" = ["aaaa f", "bbbb f"] ∧
    splitWhitespace "aaaa f" = ["aaaa", "f"] ∧
    Shasums.shasum "aaaa f\nbbbb f" "f" = .ok (some "bbbb") ∧
    "bbbb" ≠ "aaaa" := by
  refine ⟨by decide, by decide, by decide, by decide⟩

/-- C5 (amended): for every well-formed manifest, `lookup(f)` returns
exactly the digest paired with `f` on its *last* matching line (the
`HashMap::insert` in `parse` overwrites earlier bindings, so with
duplicate filenames the last line wins, not the first), and `none`
(`NotFound`) for filenames absent from the manifest. -/
theorem shasums_lookup_last_match (content : String)
    (m : List (String × String)) (f : String)
    (h : Shasums.parse content = .ok m) :
    Shasums.shasum content f = .ok (lastShasumFor (rustLines content) f) := by
  have hget := parseLines_get (rustLines content) [] m f h
  simp only [Shasums.shasum, h]
  rw [hget]
  cases lastShasumFor (rustLines content) f with
  | some v => rfl
  | none => rfl

/-- Witness for `shasums_lookup_last_match` at the duplicate-filename
manifest `"aaaa f\nbbbb f"`. -/
theorem shasums_lookup_last_match_witness :
    Shasums.shasum "aaaa f\nbbbb f" "f" =
      .ok (lastShasumFor (rustLines "aaaa f\nbbbb f") "f") :=
  shasums_lookup_last_match "aaaa f\nbbbb f" [("f", "bbbb")] "f" (by decide)

/-- C6 counterexample: with manifest `"AB f"` and a computed SHA-256
digest `[0xAB]`, the two digests are equal after lower-case
normalization of both sides, so the claim says the comparison must
return `Match`; the code compares `hex::encode(hash)` (lower-case) with
the stored digest verbatim and returns `Bad`. -/
theorem shasums_check_case_sensitive_counterexample :
    normalizeHex (hexEncode [171]) = normalizeHex "AB" ∧
    Shasums.check "AB f" "f" [171] = .ok Checksum.Bad := by
  refine ⟨by decide, by decide⟩

/-- C6 (amended): for every manifest entry, the checksum comparison
returns `Match` exactly when the lower-case hex encoding of the computed
digest is byte-for-byte equal to the stored digest; the stored digest is
*not* normalized, so a manifest digest written in upper-case hex yields
`Mismatch` even when the hashes agree. -/
theorem shasums_check_exact_equality (content f : String) (digest : List Nat)
    (m : List (String × String)) (s : String)
    (hparse : Shasums.parse content = .ok m)
    (hget : hashGet m f = some s) :
    (Shasums.check content f digest = .ok Checksum.OK ↔ hexEncode digest = s) ∧
    (Shasums.check content f digest = .ok Checksum.Bad ↔ hexEncode digest ≠ s) := by
  rw [Shasums.check, Shasums.shasum, hparse]
  simp only [hget]
  by_cases h : hexEncode digest = s <;> simp [h]

/-- Witness for `shasums_check_exact_equality`: lower-case manifest digest
`"ab"` and computed digest `[0xAB]` compare equal. -/
theorem shasums_check_exact_equality_witness :
    (Shasums.check "ab f" "f" [171] = .ok Checksum.OK ↔ hexEncode [171] = "ab") ∧
    (Shasums.check "ab f" "f" [171] = .ok Checksum.Bad ↔ hexEncode [171] ≠ "ab") :=
  shasums_check_exact_equality "ab f" "f" [171] [("f", "ab")] "ab"
    (by decide) (by decide)

/-! ## Lemmas about the Signature Verifier -/

theorem checkSubkeysLoop_all_false (subkeys : List Bool)
    (h : ∀ b ∈ subkeys, b = false) (idx : Nat) :
    checkSubkeysLoop subkeys idx =
      ((List.range' idx subkeys.length).map KeyTried.subkey, false) := by
  induction subkeys generalizing idx with
  | nil => simp [checkSubkeysLoop, List.range']
  | cons b rest ih =>
    have hb : b = false := h b (List.mem_cons_self _ _)
    subst hb
    have := ih (fun x hx => h x (List.mem_cons_of_mem _ hx)) (idx + 1)
    simp [checkSubkeysLoop, this, List.range']

theorem checkSubkeysLoop_first_true (subkeys : List Bool) (idx i : Nat)
    (hi : i < subkeys.length) (ht : subkeys.get ⟨i, hi⟩ = true)
    (hbefore : ∀ b ∈ subkeys.take i, b = false) :
    checkSubkeysLoop subkeys idx =
      ((List.range' idx (i + 1)).map KeyTried.subkey, true) := by
  induction subkeys generalizing idx i with
  | nil => simp at hi
  | cons b rest ih =>
    cases i with
    | zero =>
      simp only [List.get] at ht
      subst ht
      simp [checkSubkeysLoop, List.range']
    | succ i2 =>
      have hb : b = false := hbefore b (by simp [List.take])
      subst hb
      have hi2 : i2 < rest.length := Nat.lt_of_succ_lt_succ hi
      have := ih (idx + 1) i2 hi2 ht
        (fun x hx => hbefore x (by simp [List.take, hx]))
      simp [checkSubkeysLoop, this, List.range']

/-- C2: `Signature::check` tries the signature against each public subkey
in index order and returns success at the first subkey that validates,
trying no further key; when no subkey validates it tries the primary
public key, and when that also fails it returns the single generic
`VerificationFailed` error, whose nullary constructor carries no
information about which key was tried or why verification failed.
`subkeys` lists the verification outcome against each subkey in order
and `primaryKey` the outcome against the primary key; the first
component of `Signature.check` is the ordered list of keys tried. -/
theorem signature_check_subkey_order (subkeys : List Bool) (primaryKey : Bool) :
    (∀ (i : Nat) (hi : i < subkeys.length), subkeys.get ⟨i, hi⟩ = true →
      (∀ b ∈ subkeys.take i, b = false) →
      Signature.check subkeys primaryKey =
        ((List.range' 0 (i + 1)).map KeyTried.subkey, .ok ())) ∧
    ((∀ b ∈ subkeys, b = false) → primaryKey = true →
      Signature.check subkeys primaryKey =
        ((List.range' 0 subkeys.length).map KeyTried.subkey ++ [.primary], .ok ())) ∧
    ((∀ b ∈ subkeys, b = false) → primaryKey = false →
      Signature.check subkeys primaryKey =
        ((List.range' 0 subkeys.length).map KeyTried.subkey ++ [.primary],
         .error .VerificationFailed)) := by
  refine ⟨fun i hi ht hbefore => ?_, fun hall hp => ?_, fun hall hp => ?_⟩
  · simp [Signature.check, checkSubkeysLoop_first_true subkeys 0 i hi ht hbefore]
  · subst hp
    simp [Signature.check, checkSubkeysLoop_all_false subkeys hall 0]
  · subst hp
    simp [Signature.check, checkSubkeysLoop_all_false subkeys hall 0]

/-- Witness for `signature_check_subkey_order`: with outcomes
`[false, true, false]` the second subkey is the first that validates,
verification succeeds, and only subkeys 0 and 1 are tried (neither
subkey 2 nor the primary key). -/
theorem signature_check_subkey_order_witness :
    Signature.check [false, true, false] false =
      ((List.range' 0 2).map KeyTried.subkey, .ok ()) :=
  (signature_check_subkey_order [false, true, false] false).1 1 (by decide)
    (by decide) (by decide)

/-! ## Trusted-key resolution -/

/-- C3: when no key is explicitly supplied, `get_public_key` returns the
compiled-in key constant in embedded-key mode; otherwise it resolves the
platform shared-data directory, failing with `NoSharedDataDir` when the
platform supplies none, failing with `NoSharedDataDirExists` when the
resolved path does not exist or is not a directory, and then looks for
`hashicorp.asc` under `<data-dir>/hcdl/`, failing with `GpgKeyNotFound`
when that path does not exist or is not a regular file; every failure of
path resolution is propagated (resolution never falls back to skipping
verification). -/
theorem get_public_key_resolution (cfg : BuildConfig) (p : Platform)
    (readFile : String → Except Unit String) :
    (cfg.embedGpgKey = true →
      getPublicKey cfg p readFile = .ok cfg.embeddedKey) ∧
    (cfg.embedGpgKey = false → p.dataDir = none →
      getPublicKey cfg p readFile = .error .NoSharedDataDir) ∧
    (∀ dd, cfg.embedGpgKey = false → p.dataDir = some dd →
      ¬(p.pathExists dd = true ∧ p.isDir dd = true) →
      getPublicKey cfg p readFile = .error (.NoSharedDataDirExists dd)) ∧
    (∀ dd, cfg.embedGpgKey = false → p.dataDir = some dd →
      p.pathExists dd = true → p.isDir dd = true →
      ¬(p.pathExists (pathJoin (pathJoin dd cargoPkgName) hashicorpGpgKeyFilename) = true ∧
        p.isFile (pathJoin (pathJoin dd cargoPkgName) hashicorpGpgKeyFilename) = true) →
      getPublicKey cfg p readFile =
        .error (.GpgKeyNotFound
          (pathJoin (pathJoin dd cargoPkgName) hashicorpGpgKeyFilename))) ∧
    (∀ e, cfg.embedGpgKey = false → getPublicKeyPath p = .error e →
      getPublicKey cfg p readFile = .error e) := by
  refine ⟨fun hembed => ?_, fun hembed hdd => ?_, fun dd hembed hdd hbad => ?_,
    fun dd hembed hdd hex hdir hbad => ?_, fun e hembed herr => ?_⟩
  · simp [getPublicKey, hembed]
  · simp [getPublicKey, getPublicKeyPath, hembed, hdd]
  · rcases Decidable.not_and_iff_or_not.mp hbad with hb | hb <;>
      simp_all [getPublicKey, getPublicKeyPath, hembed, hdd]
  · have hcond : p.pathExists (pathJoin (pathJoin dd cargoPkgName)
        hashicorpGpgKeyFilename) = false ∨
        p.isFile (pathJoin (pathJoin dd cargoPkgName) hashicorpGpgKeyFilename) = false := by
      rcases Decidable.not_and_iff_or_not.mp hbad with hb | hb
      · exact Or.inl (by simpa using hb)
      · exact Or.inr (by simpa using hb)
    simp [getPublicKey, getPublicKeyPath, hembed, hdd, hex, hdir, hcond]
  · simp [getPublicKey, hembed, herr]

/-- Witness for `get_public_key_resolution`: in file mode on a platform
with no shared-data directory, resolution fails with
`NoSharedDataDir`. -/
theorem get_public_key_resolution_witness :
    getPublicKey ⟨false, ""⟩ ⟨none, fun _ => false, fun _ => false, fun _ => false⟩
      (fun _ => .error ()) = .error .NoSharedDataDir :=
  (get_public_key_resolution ⟨false, ""⟩
    ⟨none, fun _ => false, fun _ => false, fun _ => false⟩
    (fun _ => .error ())).2.1 rfl rfl

/-! ## Lemmas about the Staged Temp File -/

theorem fsLookup_fsSet (fs : Fs) (k : String) (v : List Nat × Nat) :
    fsLookup (fsSet fs k v) k = some v := by
  induction fs with
  | nil => simp [fsSet, fsLookup]
  | cons hd tl ih =>
    obtain ⟨k0, v0⟩ := hd
    by_cases h : k0 = k
    · simp [fsSet, fsLookup, h]
    · simp [fsSet, fsLookup, h, ih]

theorem fsSet_fsSet (fs : Fs) (k : String) (v w : List Nat × Nat) :
    fsSet (fsSet fs k v) k w = fsSet fs k w := by
  induction fs with
  | nil => simp [fsSet]
  | cons hd tl ih =>
    obtain ⟨k0, v0⟩ := hd
    by_cases h : k0 = k
    · simp [fsSet, h]
    · simp [fsSet, h, ih]

/-- C10: `TmpFile::persist` copies the staged content to the path named
by the `TmpFile`'s filename — truncating any existing file there while
keeping its permission bits, and creating a missing file with Unix mode
`0o644` — rather than renaming the temp file away: the temp file keeps
its identity and content, `handle()` afterwards still rewinds to offset
0 and re-reads the same bytes, and calling `persist` a second time is
idempotent (it rewrites the same destination content and leaves both the
temp file and the filesystem unchanged). -/
theorem tmpfile_persist_copies (t : TmpFile) (fs : Fs) :
    ((t.persist fs).1.content = t.content ∧ (t.persist fs).1.filename = t.filename) ∧
    (fsLookup fs t.filename = none →
      fsLookup (t.persist fs).2 t.filename = some (t.content, 0o644)) ∧
    (∀ c0 mode, fsLookup fs t.filename = some (c0, mode) →
      fsLookup (t.persist fs).2 t.filename = some (t.content, mode)) ∧
    ((t.persist fs).1.handle.pos = 0 ∧
      ((t.persist fs).1.handle.readToEnd).2 = t.content) ∧
    TmpFile.persist (t.persist fs).1 (t.persist fs).2 =
      ((t.persist fs).1, (t.persist fs).2) := by
  refine ⟨⟨rfl, rfl⟩, fun hnone => ?_, fun c0 mode hsome => ?_, ⟨rfl, by
    simp [TmpFile.persist, TmpFile.handle, TmpFile.readToEnd]⟩, ?_⟩
  · simp [TmpFile.persist, TmpFile.handle, TmpFile.readToEnd, hnone, fsLookup_fsSet]
  · simp [TmpFile.persist, TmpFile.handle, TmpFile.readToEnd, hsome, fsLookup_fsSet]
  · simp [TmpFile.persist, TmpFile.handle, TmpFile.readToEnd, fsLookup_fsSet,
      fsSet_fsSet]

/-- Witness for `tmpfile_persist_copies` at a concrete temp file and an
empty filesystem. -/
theorem tmpfile_persist_copies_witness :
    fsLookup (TmpFile.persist ⟨"f", [1, 2], 2⟩ []).2 "f" = some ([1, 2], 0o644) :=
  ((tmpfile_persist_copies ⟨"f", [1, 2], 2⟩ []).2.1) rfl

/-! ## Lemmas about the Archive Installer -/

theorem installEntries_cons_noBasename (dir : String) (e : ZipEntry)
    (rest : List ZipEntry) (idx : Nat) (hb : rustFileName e.name = none) :
    installEntries dir (e :: rest) idx =
      ([FsEvent.readEntry idx], .error (.ZipFileBasename e.name)) := by
  simp [installEntries, hb]

theorem installEntries_cons_badCrc (dir : String) (e : ZipEntry)
    (rest : List ZipEntry) (idx : Nat) (b : String)
    (hb : rustFileName e.name = some b) (hcrc : crc32 e.data ≠ e.storedCrc32) :
    installEntries dir (e :: rest) idx =
      ([FsEvent.readEntry idx, FsEvent.createTemp dir idx,
        FsEvent.writeTemp idx e.data,
        FsEvent.crcCheck idx (crc32 e.data) e.storedCrc32],
       .error (.Crc32 (crc32 e.data) e.storedCrc32)) := by
  simp [installEntries, hb, extract, hcrc]

theorem installEntries_cons_ok (dir : String) (e : ZipEntry)
    (rest : List ZipEntry) (idx : Nat) (b : String)
    (hb : rustFileName e.name = some b) (hcrc : crc32 e.data = e.storedCrc32) :
    installEntries dir (e :: rest) idx =
      (okBlock dir e idx ++ (installEntries dir rest (idx + 1)).1,
       match (installEntries dir rest (idx + 1)).2 with
       | .error err => .error err
       | .ok names => .ok (b :: names)) := by
  rcases hrest : installEntries dir rest (idx + 1) with ⟨restEvents, restRes⟩
  cases hmode : e.unixMode with
  | none => simp [installEntries, hb, extract, hcrc, hrest, okBlock, basenameOf, hmode]
  | some mode =>
    simp [installEntries, hb, extract, hcrc, hrest, okBlock, basenameOf, hmode]

theorem installEntries_append (dir : String) (pre rest : List ZipEntry) (idx : Nat)
    (h : ∀ e ∈ pre, entryOk e) :
    installEntries dir (pre ++ rest) idx =
      (blockEvents dir pre idx ++ (installEntries dir rest (idx + pre.length)).1,
       match (installEntries dir rest (idx + pre.length)).2 with
       | .error err => .error err
       | .ok names => .ok (pre.map basenameOf ++ names)) := by
  induction pre generalizing idx with
  | nil =>
    simp only [List.nil_append, blockEvents, List.length_nil, Nat.add_zero,
      List.map_nil]
    rcases hx : installEntries dir rest idx with ⟨tr, res⟩
    cases res <;> simp
  | cons e pre2 ih =>
    obtain ⟨hsome, hcrc⟩ := h e (List.mem_cons_self _ _)
    obtain ⟨b, hb⟩ := Option.isSome_iff_exists.mp hsome
    have hbase : basenameOf e = b := by simp [basenameOf, hb]
    have step := installEntries_cons_ok dir e (pre2 ++ rest) idx b hb hcrc
    have ih2 := ih (idx + 1) (fun x hx => h x (List.mem_cons_of_mem _ hx))
    have harith : idx + (e :: pre2).length = idx + 1 + pre2.length := by
      simp only [List.length_cons]
      omega
    rw [List.cons_append, step, ih2, harith]
    rcases hx : installEntries dir rest (idx + 1 + pre2.length) with ⟨tr, res⟩
    cases res <;> simp [blockEvents, hbase, List.append_assoc]

theorem persistFile_mem_blockEvents (dir : String) (pre : List ZipEntry) :
    ∀ (idx t : Nat) (dest : String),
      FsEvent.persistFile t dest ∈ blockEvents dir pre idx → t < idx + pre.length := by
  induction pre with
  | nil => intro idx t dest hmem; simp [blockEvents] at hmem
  | cons e pre2 ih =>
    intro idx t dest hmem
    rcases List.mem_append.mp (by simpa [blockEvents] using hmem) with hin | hin
    · cases hmode : e.unixMode with
      | none =>
        simp [okBlock, hmode] at hin
        obtain ⟨ht, hd⟩ := hin
        subst ht
        simp only [List.length_cons]
        omega
      | some mode =>
        simp [okBlock, hmode] at hin
        obtain ⟨ht, hd⟩ := hin
        subst ht
        simp only [List.length_cons]
        omega
    · have := ih (idx + 1) t dest hin
      simp only [List.length_cons]
      omega

theorem persistFile_guard (dir : String) (entries : List ZipEntry) :
    ∀ (idx t : Nat) (dest : String),
      FsEvent.persistFile t dest ∈ (installEntries dir entries idx).1 →
      ∃ data, List.Sublist [FsEvent.createTemp dir t, FsEvent.writeTemp t data,
               FsEvent.crcCheck t (crc32 data) (crc32 data),
               FsEvent.persistFile t dest] ((installEntries dir entries idx).1) := by
  induction entries with
  | nil => intro idx t dest hmem; simp [installEntries] at hmem
  | cons e rest ih =>
    intro idx t dest hmem
    cases hb : rustFileName e.name with
    | none =>
      rw [installEntries_cons_noBasename dir e rest idx hb] at hmem
      simp at hmem
    | some b =>
      by_cases hcrc : crc32 e.data = e.storedCrc32
      · rw [installEntries_cons_ok dir e rest idx b hb hcrc] at hmem ⊢
        simp only at hmem ⊢
        rcases List.mem_append.mp hmem with hin | hin
        · refine ⟨e.data, ?_⟩
          cases hmode : e.unixMode with
          | none =>
            simp [okBlock, hmode] at hin
            obtain ⟨ht, hd⟩ := hin
            subst ht
            subst hd
            simp only [okBlock, hmode, List.cons_append, List.nil_append]
            rw [hcrc]
            exact (((((List.nil_sublist _).cons₂ _).cons₂ _).cons₂ _).cons₂ _).cons _
          | some mode =>
            simp [okBlock, hmode] at hin
            obtain ⟨ht, hd⟩ := hin
            subst ht
            subst hd
            simp only [okBlock, hmode, List.cons_append, List.nil_append]
            rw [hcrc]
            exact (((((List.nil_sublist _).cons₂ _).cons₂ _).cons₂ _).cons₂ _).cons _
        · obtain ⟨data, hsub⟩ := ih (idx + 1) t dest hin
          exact ⟨data, hsub.trans (List.sublist_append_right _ _)⟩
      · rw [installEntries_cons_badCrc dir e rest idx b hb hcrc] at hmem
        simp at hmem

theorem setPermBits_guard (dir : String) (entries : List ZipEntry) :
    ∀ (idx : Nat) (dest : String) (mode : Nat),
      FsEvent.setPermBits dest mode ∈ (installEntries dir entries idx).1 →
      ∃ t, List.Sublist [FsEvent.persistFile t dest, FsEvent.setPermBits dest mode]
        ((installEntries dir entries idx).1) := by
  induction entries with
  | nil => intro idx dest mode hmem; simp [installEntries] at hmem
  | cons e rest ih =>
    intro idx dest mode hmem
    cases hb : rustFileName e.name with
    | none =>
      rw [installEntries_cons_noBasename dir e rest idx hb] at hmem
      simp at hmem
    | some b =>
      by_cases hcrc : crc32 e.data = e.storedCrc32
      · rw [installEntries_cons_ok dir e rest idx b hb hcrc] at hmem ⊢
        simp only at hmem ⊢
        rcases List.mem_append.mp hmem with hin | hin
        · cases hmode : e.unixMode with
          | none => simp [okBlock, hmode] at hin
          | some m =>
            simp [okBlock, hmode] at hin
            obtain ⟨hd, hm⟩ := hin
            subst hd
            subst hm
            refine ⟨idx, ?_⟩
            simp only [okBlock, hmode, List.cons_append, List.nil_append]
            exact ((((((List.nil_sublist _).cons₂ _).cons₂ _).cons _).cons _).cons _).cons _
        · obtain ⟨t, hsub⟩ := ih (idx + 1) dest mode hin
          exact ⟨t, hsub.trans (List.sublist_append_right _ _)⟩
      · rw [installEntries_cons_badCrc dir e rest idx b hb hcrc] at hmem
        simp at hmem

theorem install_ok_dir (dir : String) (entries : List ZipEntry) :
    install true dir (.ok entries) = installEntries dir entries 0 := rfl

/-- C1: in every install run, every persisted entry was first written to
a temp file created inside the destination directory and CRC32-checked
(passing, against the entry's stored CRC32) while still at its temp
path, strictly before the persist; permissions are altered on a
destination path only after the persist to that path; and when an
entry's extracted bytes do not hash to its stored CRC32, the run aborts
with the `UnexpectedCrc32` error and no file for that entry is ever
persisted. -/
theorem install_crc_gate (dir : String) (entries : List ZipEntry) :
    (∀ (t : Nat) (dest : String),
      FsEvent.persistFile t dest ∈ (install true dir (.ok entries)).1 →
      ∃ data, List.Sublist
        [FsEvent.createTemp dir t, FsEvent.writeTemp t data,
         FsEvent.crcCheck t (crc32 data) (crc32 data),
         FsEvent.persistFile t dest] ((install true dir (.ok entries)).1)) ∧
    (∀ (dest : String) (mode : Nat),
      FsEvent.setPermBits dest mode ∈ (install true dir (.ok entries)).1 →
      ∃ t, List.Sublist
        [FsEvent.persistFile t dest, FsEvent.setPermBits dest mode]
        ((install true dir (.ok entries)).1)) ∧
    (∀ pre e post b, entries = pre ++ e :: post → (∀ x ∈ pre, entryOk x) →
      rustFileName e.name = some b → crc32 e.data ≠ e.storedCrc32 →
      (install true dir (.ok entries)).2 =
        .error (.Crc32 (crc32 e.data) e.storedCrc32) ∧
      ∀ dest, FsEvent.persistFile pre.length dest ∉
        (install true dir (.ok entries)).1) := by
  refine ⟨fun t dest hmem => ?_, fun dest mode hmem => ?_,
    fun pre e post b hsplit hpre hb hcrc => ?_⟩
  · rw [install_ok_dir] at hmem ⊢
    exact persistFile_guard dir entries 0 t dest hmem
  · rw [install_ok_dir] at hmem ⊢
    exact setPermBits_guard dir entries 0 dest mode hmem
  · subst hsplit
    have hdec := installEntries_append dir pre (e :: post) 0 hpre
    simp only [Nat.zero_add] at hdec
    rw [installEntries_cons_badCrc dir e post pre.length b hb hcrc] at hdec
    constructor
    · rw [install_ok_dir, hdec]
    · intro dest hmem
      rw [install_ok_dir, hdec] at hmem
      simp only at hmem
      rcases List.mem_append.mp hmem with hin | hin
      · have := persistFile_mem_blockEvents dir pre 0 pre.length dest hin
        omega
      · simp at hin

/-- Witness for `install_crc_gate`: a one-entry archive whose entry
decompresses to the empty byte string (CRC32 `0`) but stores CRC32 `1`;
the run aborts with `UnexpectedCrc32` and nothing is persisted. -/
theorem install_crc_gate_witness :
    (install true "/d" (.ok [⟨"sub/dir/tool.exe", [], 1, none⟩])).2 =
      .error (.Crc32 (crc32 []) 1) ∧
    ∀ dest, FsEvent.persistFile 0 dest ∉
      (install true "/d" (.ok [⟨"sub/dir/tool.exe", [], 1, none⟩])).1 := by
  have h := (install_crc_gate "/d" [⟨"sub/dir/tool.exe", [], 1, none⟩]).2.2
    [] ⟨"sub/dir/tool.exe", [], 1, none⟩ [] "tool.exe" rfl (by simp)
    (by decide) (by decide)
  simpa using h

/-- C7: `install` writes each entry under the basename of its stored
name, stripping every directory component (an entry named
`sub/dir/tool.exe` is persisted to `<dest>/tool.exe`; the empty and
root-only stored names have no basename), and fails with
`ZipFileBasename(name)` when the stored name has no extractable
basename. -/
theorem install_basename_sanitization (dir : String) (entries : List ZipEntry) :
    (rustFileName "sub/dir/tool.exe" = some "tool.exe" ∧
      rustFileName "" = none ∧ rustFileName "/" = none) ∧
    (∀ pre e post, entries = pre ++ e :: post → (∀ x ∈ pre, entryOk x) →
      rustFileName e.name = none →
      (install true dir (.ok entries)).2 = .error (.ZipFileBasename e.name)) ∧
    (∀ pre e post b, entries = pre ++ e :: post → (∀ x ∈ pre, entryOk x) →
      rustFileName e.name = some b → crc32 e.data = e.storedCrc32 →
      FsEvent.persistFile pre.length (dir ++ "/" ++ b) ∈
        (install true dir (.ok entries)).1) := by
  refine ⟨⟨by decide, by decide, by decide⟩,
    fun pre e post hsplit hpre hb => ?_,
    fun pre e post b hsplit hpre hb hcrc => ?_⟩
  · subst hsplit
    have hdec := installEntries_append dir pre (e :: post) 0 hpre
    simp only [Nat.zero_add] at hdec
    rw [installEntries_cons_noBasename dir e post pre.length hb] at hdec
    rw [install_ok_dir, hdec]
  · subst hsplit
    have hdec := installEntries_append dir pre (e :: post) 0 hpre
    simp only [Nat.zero_add] at hdec
    rw [installEntries_cons_ok dir e post pre.length b hb hcrc] at hdec
    have hbase : basenameOf e = b := by simp [basenameOf, hb]
    rw [install_ok_dir, hdec]
    simp only
    refine List.mem_append_right _ (List.mem_append_left _ ?_)
    simp [okBlock, hbase]

/-- Witness for `install_basename_sanitization`: the entry stored as
`sub/dir/tool.exe` is persisted to `/d/tool.exe`. -/
theorem install_basename_sanitization_witness :
    FsEvent.persistFile 0 ("/d" ++ "/" ++ "tool.exe") ∈
      (install true "/d" (.ok [⟨"sub/dir/tool.exe", [], 0, none⟩])).1 :=
  (install_basename_sanitization "/d" [⟨"sub/dir/tool.exe", [], 0, none⟩]).2.2
    [] ⟨"sub/dir/tool.exe", [], 0, none⟩ [] "tool.exe" rfl (by simp)
    (by decide) (by decide)

/-- C8: when the destination is not an existing directory, `install`
fails immediately with `NoInstallDir(destinationDir)`, whatever the
archive argument is (in particular even when the central directory is
unreadable it is never opened), with an empty event trace — so zero
archive entries are read. -/
theorem install_no_install_dir (dir : String) (archive : Except Unit (List ZipEntry)) :
    install false dir archive = ([], .error (.NoInstallDir dir)) ∧
    ∀ idx, FsEvent.readEntry idx ∉ (install false dir archive).1 := by
  exact ⟨rfl, by simp [install]⟩

/-- C9: for every existing destination directory, `install` on an
archive with zero entries succeeds with an empty list of extracted
filenames and an empty event trace (no file is created in the
destination directory). -/
theorem install_empty_archive (dir : String) :
    install true dir (.ok []) = ([], .ok []) := rfl

end Hcdl
